import Mathlib

/-!
Verification development for the pyTigerGraph streaming graph-batch loading
pipeline and its surrounding request/response helpers.

The pure logic of the Python source is shallowly embedded: strings are
`String`/`List Char`, dictionaries are association lists, exceptions are
explicit result constructors, and the concurrent queue protocol of the
data loaders is modelled as lists plus an explicit interleaving relation.
-/

namespace PyTG

/-! ### Generic character-list utilities (used by several embeddings) -/

/-- Whitespace test matching the characters stripped by Python `str.strip()`
that occur in attribute names: space, tab, newline, carriage return. -/
def isWS (c : Char) : Bool :=
  c == ' ' || c == '\t' || c == '\n' || c == '\r'

/-- Strip leading whitespace characters. -/
def trimLeftL (l : List Char) : List Char :=
  l.dropWhile isWS

/-- Strip trailing whitespace characters. -/
def trimRightL (l : List Char) : List Char :=
  (l.reverse.dropWhile isWS).reverse

/-- Strip whitespace from both ends, as Python `str.strip()` does. -/
def trimL (l : List Char) : List Char :=
  trimRightL (trimLeftL l)

/-- `str.strip()` on a `String`. -/
def trimStr (s : String) : String :=
  ⟨trimL s.toList⟩

/-- Does `p` occur as a prefix of `l`? (Boolean, by direct recursion.) -/
def startsWithL : List Char → List Char → Bool
  | [], _ => true
  | _ :: _, [] => false
  | a :: p, b :: l => a == b && startsWithL p l

/-- Does the pattern `p` occur as a contiguous substring of `l`?
Models Python's `pat in res` membership test on strings. -/
def containsSubL (p : List Char) : List Char → Bool
  | [] => startsWithL p []
  | l@(_ :: rest) => startsWithL p l || containsSubL p rest

/-- `pat in s` for strings. -/
def containsSub (s pat : String) : Bool :=
  containsSubL pat.toList s.toList

/-! ### `AsyncPyTigerGraphUDT.getUDT`
(src/pyTigerGraph/pytgasync/pyTigerGraphUDT.py)

The catalog response `await self._getUDTs()` is a list of UDT records, each
a dict with a `"name"` entry and a `"fields"` entry; we embed a record as a
structure.  A field descriptor is itself a dict; its contents are never
inspected by `getUDT`, so we embed it as a name/type pair of strings. -/

/-- One User-Defined Tuple record as reported by the catalog. -/
structure TgUDT where
  name : String
  fields : List (String × String)
  deriving DecidableEq, Repr

/-- Embedding of `AsyncPyTigerGraphUDT.getUDT`: scan the catalog's UDT list
in order; on the first record whose `name` matches, return its `fields`;
if the loop finishes without a match, return `[]`. -/
def getUDT (udts : List TgUDT) (udtName : String) : List (String × String) :=
  match udts with
  | [] => []
  | udt :: rest => if udt.name == udtName then udt.fields else getUDT rest udtName

/-! ### `pyTigerGraphAuth.dropSecret`
(src/pyTigerGraph/pyTigerGraphAuth.py, lines 145-178)

The GSQL round-trip `self.gsql(cmd)` is the external collaborator; we embed
it as a function argument `gsql : String → String`.  Raising
`TigerGraphException(res)` vs. returning `res` becomes an explicit sum. -/

/-- The alias argument of `dropSecret`: one alias string or a list of them. -/
inductive AliasArg where
  | one (a : String)
  | many (as : List String)
  deriving DecidableEq, Repr

/-- `if isinstance(alias, str): alias = [alias]`. -/
def AliasArg.toList : AliasArg → List String
  | .one a => [a]
  | .many as => as

/-- Outcome of `dropSecret`: either `TigerGraphException(res)` was raised or
the response string was returned. -/
inductive DropSecretResult where
  | raised (res : String)
  | returned (res : String)
  deriving DecidableEq, Repr

/-- The GSQL command string assembled by `dropSecret` (the `USE GRAPH`
header plus one `DROP SECRET` line per alias). -/
def dropSecretCmd (graphname : String) (aliases : List String) : String :=
  aliases.foldl
    (fun c a => c ++ "\n                DROP SECRET " ++ a)
    ("\n            USE GRAPH " ++ graphname)

/-- Embedding of `pyTigerGraphAuth.dropSecret`: normalize the alias argument
to a list, build the command, send it through `gsql`, and raise exactly when
the response contains `"Failed to drop secrets"` and `ignoreErrors` is
false; otherwise return the response. -/
def dropSecret (gsql : String → String) (graphname : String)
    (aliasArg : AliasArg) (ignoreErrors : Bool) : DropSecretResult :=
  let res := gsql (dropSecretCmd graphname aliasArg.toList)
  if containsSub res "Failed to drop secrets" && !ignoreErrors then
    .raised res
  else
    .returned res

/-! ### Wire Decoder

Modelled from the spec: the decoder of `BaseLoader._read_data`
(`pyTigerGraph/gds/dataloaders.py`, absent from the sources; only its tests
are present).  A raw payload is split on the record separator (newline),
then on the field separator (comma); columns are, in strict positional
order, the identity column(s) (`vid` for vertex payloads, `source` and
`target` for edge payloads), then `inFeatures`, `outLabels` and
`extraFeatures` in declared order; each field is coerced per its declared
primitive type, with space-separated numeric fields parsed as fixed-width
numeric lists.  Floating-point fields appear only as decimal literals and
are embedded exactly as scaled decimals `num / 10 ^ den`. -/

/-- Split a character list on a separator character (like `str.split(sep)`:
`n` separators yield `n+1` chunks, possibly empty). -/
def splitOnChar (sep : Char) : List Char → List (List Char)
  | [] => [[]]
  | c :: cs =>
    if c == sep then [] :: splitOnChar sep cs
    else (splitOnChar sep cs).modifyHead (c :: ·)

/-- Decimal digits to a natural number. -/
def parseNatL (l : List Char) : Nat :=
  l.foldl (fun n c => n * 10 + (c.toNat - 48)) 0

/-- Decimal digits with optional leading minus sign to an integer. -/
def parseIntL : List Char → Int
  | '-' :: rest => - (parseNatL rest : Int)
  | l => (parseNatL l : Int)

/-- A nonnegative decimal literal `w.f` as a scaled decimal
`(w * 10 ^ |f| + f, |f|)`, meaning `num / 10 ^ den`. -/
def parseDecPos (l : List Char) : Int × Nat :=
  match splitOnChar '.' l with
  | [] => (0, 0)
  | [w] => ((parseNatL w : Int), 0)
  | w :: f :: _ => ((parseNatL w * 10 ^ f.length + parseNatL f : Int), f.length)

/-- A decimal literal with optional leading minus sign as a scaled decimal. -/
def parseDecL : List Char → Int × Nat
  | '-' :: rest => ((- (parseDecPos rest).1, (parseDecPos rest).2) : Int × Nat)
  | l => parseDecPos l

/-- Declared primitive attribute types of the Schema Catalog. -/
inductive PrimType where
  | tInt
  | tFloat
  | tBool
  | tStr
  deriving DecidableEq, Repr

/-- A decoded field value: integer, scaled-decimal float, boolean, text, or
a fixed-width numeric list (integer or float entries). -/
inductive Value where
  | vInt (n : Int)
  | vFloat (num : Int) (den : Nat)
  | vBool (b : Bool)
  | vStr (s : String)
  | vList (ns : List Int)
  | vListF (xs : List (Int × Nat))
  deriving DecidableEq, Repr

/-- Modelled from the spec: coercion of one raw field per its declared
primitive type.  `INT`/`FLOAT` fields holding several space-separated
tokens are fixed-length numeric lists split on the secondary (space)
separator; `BOOL` decodes the store's `0`/`1` literal encoding; `STRING`
is left as text. -/
def decodeField (t : PrimType) (f : List Char) : Value :=
  let toks := (splitOnChar ' ' f).filter (fun tk => !tk.isEmpty)
  match t with
  | .tStr => .vStr ⟨f⟩
  | .tBool => .vBool (parseIntL (trimL f) != 0)
  | .tInt =>
    if toks.length ≤ 1 then .vInt (parseIntL (trimL f))
    else .vList (toks.map parseIntL)
  | .tFloat =>
    if toks.length ≤ 1 then .vFloat (parseDecL (trimL f)).1 (parseDecL (trimL f)).2
    else .vListF (toks.map parseDecL)

/-- Resolve a declared attribute name to its primitive type in the
per-attribute type mapping handed to `_read_data`. -/
def lookupType (types : List (String × PrimType)) (n : String) : PrimType :=
  ((types.find? (fun p => p.1 == n)).map Prod.snd).getD .tStr

/-- `WireFormatError`: protocol mismatch between query and decoder. -/
inductive WireErr where
  | fieldCount
  | listWidth
  deriving DecidableEq, Repr

/-- Width of a value when it is a numeric list. -/
def valWidth : Value → Option Nat
  | .vList ns => some ns.length
  | .vListF xs => some xs.length
  | _ => none

/-- A decoded column is uniform when either no record parsed as a numeric
list, or every record parsed as a numeric list of one common width. -/
def uniformCol (col : List Value) : Bool :=
  match col.filterMap valWidth with
  | [] => true
  | w :: ws => ws.all (· == w) && (col.length == ws.length + 1)

/-- Modelled from the spec: decode one record — split on the field
separator, check the field count against the declared schema, parse the
leading identity fields as integers and the remaining fields per the
declared attribute types, in positional order. -/
def decodeRecord (idCount : Nat) (attrTypes : List PrimType) (rec : List Char) :
    Except WireErr (List Value) :=
  let fields := splitOnChar ',' rec
  if fields.length == idCount + attrTypes.length then
    .ok ((fields.take idCount).map (fun f => .vInt (parseIntL (trimL f))) ++
      (attrTypes.zip (fields.drop idCount)).map (fun p => decodeField p.1 p.2))
  else .error .fieldCount

/-- Modelled from the spec: decode a whole delimited byte payload into
typed columns.  Records are the nonempty newline-separated chunks; the
column names are the identity columns followed by the declared attribute
names; a wrong field count or a non-uniform list width fails with
`WireFormatError`. -/
def decodePayload (idCols : List String) (attrNames : List String)
    (types : List (String × PrimType)) (payload : String) :
    Except WireErr (List (String × List Value)) :=
  match ((splitOnChar '\n' payload.toList).filter (fun r => !r.isEmpty)).mapM
      (decodeRecord idCols.length (attrNames.map (lookupType types))) with
  | .error e => .error e
  | .ok rows =>
    if ((idCols ++ attrNames).enum.map
          (fun p => (p.2, rows.map (fun r => r.getD p.1 (.vInt 0))))).all
        (fun c => uniformCol c.2) then
      .ok ((idCols ++ attrNames).enum.map
        (fun p => (p.2, rows.map (fun r => r.getD p.1 (.vInt 0)))))
    else .error .listWidth

/-- Modelled from the spec: vertex-payload decoding as invoked by
`_read_data` in `vertex_bytes` mode — identity column `vid`, then the
declared input features, output labels and extra features in order. -/
def decodeVertexBytes (vIn vOut vExtra : List String)
    (types : List (String × PrimType)) (payload : String) :
    Except WireErr (List (String × List Value)) :=
  decodePayload ["vid"] (vIn ++ vOut ++ vExtra) types payload

/-- Modelled from the spec: edge-payload decoding as invoked by
`_read_data` in `edge_bytes` mode — identity columns `source` and
`target`, then the declared edge attributes in order. -/
def decodeEdgeBytes (eIn eOut eExtra : List String)
    (types : List (String × PrimType)) (payload : String) :
    Except WireErr (List (String × List Value)) :=
  decodePayload ["source", "target"] (eIn ++ eOut ++ eExtra) types payload

deriving instance DecidableEq for Except

/-- Column lookup by name in decoded columns. -/
def columnOf (cols : List (String × List Value)) (n : String) :
    Option (List Value) :=
  (cols.find? (fun c => c.1 == n)).map Prod.snd

/-! ### Attribute Spec Validator

Modelled from the spec: `BaseLoader._validate_vertex_attributes` and
`BaseLoader._validate_edge_attributes` (`pyTigerGraph/gds/dataloaders.py`,
absent from the sources; only their tests are present).  A user-supplied
attribute declaration is absent, an ordered sequence of names (homogeneous
mode) or a mapping from type name to ordered sequence (heterogeneous
mode); validation trims surrounding whitespace, checks every name against
the Schema Catalog for its owning type, and rejects shape mismatches and
invalid input types. -/

/-- Schema Catalog for one kind of entity: type name to attribute names. -/
abbrev Schema := List (String × List String)

/-- Attribute names the catalog declares for a given type name. -/
def schemaAttrsOf (schema : Schema) (t : String) : List String :=
  ((schema.find? (fun p => p.1 == t)).map Prod.snd).getD []

/-- Does any type in the catalog declare attribute `a`? -/
def schemaHasAttr (schema : Schema) (a : String) : Bool :=
  schema.any (fun p => p.2.contains a)

/-- A user-supplied attribute declaration: absent (`None`), an ordered
sequence, a mapping keyed by type name, or a value of some other type. -/
inductive AttrInput where
  | absent
  | seq (xs : List String)
  | byMap (m : List (String × List String))
  | otherValue
  deriving DecidableEq, Repr

/-- Normalized attribute spec: flat sequence (homogeneous mode) or per-type
mapping (heterogeneous mode). -/
inductive AttrOutput where
  | flat (xs : List String)
  | byType (m : List (String × List String))
  deriving DecidableEq, Repr

/-- Validation errors (all `ValueError` in the Python source). -/
inductive ValErr where
  | unknownAttribute
  | schemaMode
  | invalidInputType
  deriving DecidableEq, Repr

/-- Is the declaration empty or absent (`None`, `[]` or `{}`)? -/
def AttrInput.isEmptyDecl : AttrInput → Bool
  | .absent => true
  | .seq [] => true
  | .byMap [] => true
  | _ => false

/-- View a normalized spec as the declaration it prints as. -/
def AttrOutput.toInput : AttrOutput → AttrInput
  | .flat xs => .seq xs
  | .byType m => .byMap m

/-- Modelled from the spec: the common validation routine behind
`_validate_vertex_attributes` and `_validate_edge_attributes`.  Empty or
absent input yields the empty spec of the requested shape; otherwise the
names are trimmed and checked against the Schema Catalog
(`UnknownAttributeError` on a miss), a sequence in heterogeneous mode or a
mapping in homogeneous mode is a `SchemaModeError`, and any other value is
an `InvalidInputTypeError`. -/
def validateAttributes (schema : Schema) (input : AttrInput) (isHetero : Bool) :
    Except ValErr AttrOutput :=
  if input.isEmptyDecl then
    .ok (if isHetero then .byType [] else .flat [])
  else
    match isHetero, input with
    | false, .seq xs =>
      let ts := xs.map trimStr
      if ts.all (schemaHasAttr schema) then .ok (.flat ts)
      else .error .unknownAttribute
    | true, .byMap m =>
      let tm := m.map (fun p => (p.1, p.2.map trimStr))
      if tm.all (fun p => p.2.all (fun a => (schemaAttrsOf schema p.1).contains a)) then
        .ok (.byType tm)
      else .error .unknownAttribute
    | false, .byMap _ => .error .schemaMode
    | true, .seq _ => .error .schemaMode
    | _, .otherValue => .error .invalidInputType
    | _, .absent => .ok (if isHetero then .byType [] else .flat [])

/-- `_validate_vertex_attributes`, validating against the vertex schema. -/
def validateVertexAttributes (vSchema : Schema) (input : AttrInput)
    (isHetero : Bool) : Except ValErr AttrOutput :=
  validateAttributes vSchema input isHetero

/-- `_validate_edge_attributes`, validating against the edge schema. -/
def validateEdgeAttributes (eSchema : Schema) (input : AttrInput)
    (isHetero : Bool) : Except ValErr AttrOutput :=
  validateAttributes eSchema input isHetero

/-- The Cora vertex schema of the tests (`loader._v_schema`). -/
def coraVSchema : Schema :=
  [("Paper", ["x", "y", "train_mask", "val_mask", "test_mask", "id"])]

/-- The Cora edge schema of the tests (`loader._e_schema`). -/
def coraESchema : Schema :=
  [("Cite", ["time", "is_train"])]

/-! ### Batch Assembler (tensor-graph representation)

Modelled from the spec: the PyG branch of `BaseLoader._read_data`
(`pyTigerGraph/gds/dataloaders.py`, absent from the sources; only its
tests are present).  Distinct vertex IDs are assigned dense local indices
`0..k-1` in first-seen order, seed (vertex-table) vertices first, then
neighbor IDs in first-encounter order along the edge list; edge endpoint
columns are rewritten through this mapping; declared feature columns are
stacked into fixed-shape arrays and undeclared attributes are omitted. -/

/-- Accumulator version of first-seen deduplication: keep each element's
first occurrence, skipping anything already `seen`. -/
def firstSeenAux (seen : List Int) : List Int → List Int
  | [] => []
  | x :: xs =>
    if x ∈ seen then firstSeenAux seen xs
    else x :: firstSeenAux (x :: seen) xs

/-- The distinct elements of `l` in order of first occurrence. -/
def firstSeen (l : List Int) : List Int :=
  firstSeenAux [] l

/-- Index of the first occurrence of `v` in `l` (length of `l` if absent). -/
def localIdx (v : Int) : List Int → Nat
  | [] => 0
  | x :: xs => if x = v then 0 else localIdx v xs + 1

/-- A decoded value as an integer (vertex IDs travel as `vInt`). -/
def Value.toInt : Value → Int
  | .vInt n => n
  | .vBool b => if b then 1 else 0
  | _ => 0

/-- Integer column by name from decoded columns. -/
def intColumn (cols : List (String × List Value)) (n : String) : List Int :=
  ((columnOf cols n).getD []).map Value.toInt

/-- Edge endpoints in edge-list order, source before target per edge —
the discovery order of neighbor vertex IDs. -/
def edgeEndpointSeq (sources targets : List Int) : List Int :=
  (sources.zip targets).flatMap (fun p => [p.1, p.2])

/-- The dense local vertex-index space of a batch: seed (vertex-table) IDs
first, in original order, then neighbor IDs in first-encounter order. -/
def reindexList (vids sources targets : List Int) : List Int :=
  firstSeen (vids ++ edgeEndpointSeq sources targets)

/-- A scalar value as a one-entry row chunk; a numeric list spread into
its entries (for stacking into fixed-shape arrays). -/
def Value.toScalars : Value → List Value
  | .vList ns => ns.map Value.vInt
  | .vListF xs => xs.map (fun p => Value.vFloat p.1 p.2)
  | v => [v]

/-- Stack the named columns row-wise into a fixed-shape array: each record
contributes the concatenation of its values' scalar expansions. -/
def stackCols (cols : List (String × List Value)) (names : List String) :
    List (List Value) :=
  let selected := names.map (fun n => (columnOf cols n).getD [])
  let nrows := (selected.headD []).length
  (List.range nrows).map
    (fun i => selected.flatMap (fun col => (col.getD i (.vInt 0)).toScalars))

/-- A tensor-graph entry: the edge index (pair of local index lists), a
plain column, or a stacked feature matrix. -/
inductive TensorVal where
  | tIdx (src tgt : List Nat)
  | tCol (vs : List Value)
  | tMat (vs : List (List Value))
  deriving DecidableEq, Repr

/-- Declared attribute spec for one side (vertices or edges). -/
structure AttrSpec where
  inFeats : List String
  outLabels : List String
  extraFeats : List String
  deriving DecidableEq, Repr

/-- Modelled from the spec: assemble decoded vertex and edge columns into
the tensor-graph (PyG) batch object — always an `edge_index` with both
endpoint columns rewritten through the dense local index, then exactly
the declared edge features/labels/extras and vertex
features/labels/extras, nothing else. -/
def assemblePyg (vSpec eSpec : AttrSpec)
    (vCols eCols : List (String × List Value)) : List (String × TensorVal) :=
  let vids := intColumn vCols "vid"
  let sources := intColumn eCols "source"
  let targets := intColumn eCols "target"
  let L := reindexList vids sources targets
  [("edge_index", .tIdx (sources.map (fun s => localIdx s L))
      (targets.map (fun t => localIdx t L)))]
  ++ (if eSpec.inFeats.isEmpty then []
      else [("edge_feat", .tMat (stackCols eCols eSpec.inFeats))])
  ++ (if eSpec.outLabels.isEmpty then []
      else [("edge_label", .tMat (stackCols eCols eSpec.outLabels))])
  ++ eSpec.extraFeats.map (fun n => (n, .tCol ((columnOf eCols n).getD [])))
  ++ (if vSpec.inFeats.isEmpty then []
      else [("x", .tMat (stackCols vCols vSpec.inFeats))])
  ++ (if vSpec.outLabels.isEmpty then []
      else [("y", .tMat (stackCols vCols vSpec.outLabels))])
  ++ vSpec.extraFeats.map (fun n => (n, .tCol ((columnOf vCols n).getD [])))

/-- Modelled from the spec: `_read_data` in `graph_bytes`/`pyg` mode —
decode the vertex half and the edge half of a combined payload
independently, then assemble the tensor-graph batch. -/
def readGraphBytesPyg (vSpec eSpec : AttrSpec)
    (vTypes eTypes : List (String × PrimType)) (vPayload ePayload : String) :
    Except WireErr (List (String × TensorVal)) := do
  let vCols ← decodeVertexBytes vSpec.inFeats vSpec.outLabels vSpec.extraFeats
    vTypes vPayload
  let eCols ← decodeEdgeBytes eSpec.inFeats eSpec.outLabels eSpec.extraFeats
    eTypes ePayload
  pure (assemblePyg vSpec eSpec vCols eCols)

/-! ### Pipeline Orchestrator: reader workers and the sentinel protocol

Modelled from the spec: every reader worker (`BaseLoader._read_data`)
consumes tasks from its task queue, pushes one decoded batch object per
task onto the output queue, and, upon observing that no more tasks
remain, pushes exactly one reserved sentinel (`None`, embedded as
`Option.none`) and stops.  The consumer sees some interleaving of the
workers' pushes; the epoch completes once as many sentinels as started
workers have been consumed. -/

/-- Modelled from the spec: the output-queue pushes of one reader worker,
in order — one batch per task, then a single sentinel `none`. -/
def readData {α β : Type} (process : α → β) : List α → List (Option β)
  | [] => [none]
  | t :: ts => some (process t) :: readData process ts

/-- `Merge ls out`: `out` is an interleaving of the lists `ls` — the
pushes of concurrently running workers as consumed from the shared output
queue.  Each list's internal order is preserved; which worker goes next
is arbitrary (the `perm` rule re-selects the active worker). -/
inductive Merge {α : Type} : List (List α) → List α → Prop
  | nil : Merge [] []
  | emp {ls out} : Merge ls out → Merge ([] :: ls) out
  | pick {x l ls out} : Merge (l :: ls) out → Merge ((x :: l) :: ls) (x :: out)
  | perm {ls ls' out} : ls.Perm ls' → Merge ls' out → Merge ls out

/-! ### Claim C9: `getUDT` on a missing tuple -/

/-- C9: `AsyncPyTigerGraphUDT.getUDT` never fails on a missing tuple: it
returns the `fields` of the first catalog UDT whose name matches, and the
empty list when no UDT has the requested name. -/
theorem getUDT_first_match_or_empty (udts : List TgUDT) (n : String) :
    getUDT udts n =
      ((udts.find? (fun u => u.name == n)).map TgUDT.fields).getD [] := by
  induction udts with
  | nil => rfl
  | cons u rest ih =>
    by_cases h : u.name == n
    · simp [getUDT, List.find?_cons, h]
    · simp only [Bool.not_eq_true] at h
      simp [getUDT, List.find?_cons, h, ih]

/-! ### Claim C10: `dropSecret` raising condition and alias normalization -/

/-- C10: `dropSecret` raises `TigerGraphException` exactly when the GSQL
response contains `"Failed to drop secrets"` and `ignoreErrors` is false;
in every other case it returns the response string; and a single alias
string behaves identically to the one-element list of that alias. -/
theorem dropSecret_raise_iff (gsql : String → String) (g : String)
    (al : AliasArg) (ig : Bool) (a : String) :
    dropSecret gsql g (.one a) ig = dropSecret gsql g (.many [a]) ig ∧
    ((containsSub (gsql (dropSecretCmd g al.toList)) "Failed to drop secrets" = true ∧
        ig = false) →
      dropSecret gsql g al ig = .raised (gsql (dropSecretCmd g al.toList))) ∧
    (¬ (containsSub (gsql (dropSecretCmd g al.toList)) "Failed to drop secrets" = true ∧
        ig = false) →
      dropSecret gsql g al ig = .returned (gsql (dropSecretCmd g al.toList))) := by
  refine ⟨rfl, ?_, ?_⟩
  · rintro ⟨h1, h2⟩
    simp [dropSecret, h1, h2]
  · intro h
    cases hc : containsSub (gsql (dropSecretCmd g al.toList)) "Failed to drop secrets" with
    | false => simp [dropSecret, hc]
    | true =>
      cases ig with
      | false => exact absurd ⟨hc, rfl⟩ h
      | true => simp [dropSecret, hc]

/-- Closed instantiation of `dropSecret_raise_iff`: the single-alias call
matches the singleton-list call, and a response without the failure marker
is returned rather than raised. -/
theorem dropSecret_raise_iff_witness :
    dropSecret (fun _ => "Failed to drop secrets anyway") "Cora" (.one "s1") false =
      dropSecret (fun _ => "Failed to drop secrets anyway") "Cora" (.many ["s1"]) false ∧
    dropSecret (fun _ => "dropped") "Cora" (.many ["s1"]) false = .returned "dropped" :=
  ⟨(dropSecret_raise_iff (fun _ => "Failed to drop secrets anyway") "Cora"
      (.one "s1") false "s1").1,
    (dropSecret_raise_iff (fun _ => "dropped") "Cora"
      (.many ["s1"]) false "s1").2.2 (by decide)⟩

/-! ### Claim C6: empty or absent attribute declarations -/

/-- C6: for every empty or absent declaration (`None`, `[]` or `{}`), both
validators succeed and return the empty sequence in homogeneous mode and
the empty mapping in heterogeneous mode. -/
theorem validate_empty_decl (vS eS : Schema) :
    validateVertexAttributes vS .absent false = .ok (.flat []) ∧
    validateVertexAttributes vS (.seq []) false = .ok (.flat []) ∧
    validateVertexAttributes vS (.byMap []) false = .ok (.flat []) ∧
    validateVertexAttributes vS .absent true = .ok (.byType []) ∧
    validateVertexAttributes vS (.seq []) true = .ok (.byType []) ∧
    validateVertexAttributes vS (.byMap []) true = .ok (.byType []) ∧
    validateEdgeAttributes eS .absent false = .ok (.flat []) ∧
    validateEdgeAttributes eS (.seq []) false = .ok (.flat []) ∧
    validateEdgeAttributes eS (.byMap []) false = .ok (.flat []) ∧
    validateEdgeAttributes eS .absent true = .ok (.byType []) ∧
    validateEdgeAttributes eS (.seq []) true = .ok (.byType []) ∧
    validateEdgeAttributes eS (.byMap []) true = .ok (.byType []) :=
  ⟨rfl, rfl, rfl, rfl, rfl, rfl, rfl, rfl, rfl, rfl, rfl, rfl⟩

/-! ### Claim C1: decoding the concrete vertex payload -/

/-- The vertex payload of the concrete scenario. -/
def c1Payload : String := "99,1 0 0 1 ,1,0,1\n8,1 0 0 1 ,1,1,1\n"

/-- The declared primitive types of the concrete scenario. -/
def c1Types : List (String × PrimType) :=
  [("x", .tInt), ("y", .tInt), ("train_mask", .tBool), ("is_seed", .tBool)]

/-- The decoded columns of the concrete scenario. -/
def c1Decoded : Except WireErr (List (String × List Value)) :=
  decodeVertexBytes ["x"] ["y"] ["train_mask", "is_seed"] c1Types c1Payload

/-- C1 counterexample: on the concrete payload, the decoded `y` column is
`[1, 1]`, not `[0, 1]` as the claim states for the two rows — the third
comma-separated field of both records is `1`. -/
theorem c1_y_column_counterexample :
    c1Decoded.toOption.bind (fun cols => columnOf cols "y") =
      some [.vInt 1, .vInt 1] ∧
    some [Value.vInt 1, Value.vInt 1] ≠ some [Value.vInt 0, Value.vInt 1] := by
  constructor
  · decide
  · decide

/-- C1 (amended): the concrete vertex payload decodes to exactly two rows
with vids `99` and `8`, `x = [1,0,0,1]` for both, `y = 1` for both,
`train_mask = false` then `true`, and `is_seed = true` for both. -/
theorem c1_decode_vertex_payload :
    c1Decoded =
      .ok [("vid", [.vInt 99, .vInt 8]),
        ("x", [.vList [1, 0, 0, 1], .vList [1, 0, 0, 1]]),
        ("y", [.vInt 1, .vInt 1]),
        ("train_mask", [.vBool false, .vBool true]),
        ("is_seed", [.vBool true, .vBool true])] := by
  decide

/-! ### Claim C4: strict positional column order -/

/-- Projecting the first components back out of an enumeration-built
association list recovers the key list. -/
theorem enum_map_fst_pair {α β : Type} (names : List α) (g : Nat × α → β) :
    (names.enum.map (fun p => (p.2, g p))).map Prod.fst = names := by
  rw [List.map_map]
  exact List.enumFrom_map_snd 0 names

/-- The names of a successful `decodePayload` are the identity columns
followed by the declared attribute names, in order. -/
theorem decodePayload_names (idCols attrNames : List String)
    (types : List (String × PrimType)) (payload : String)
    (cols : List (String × List Value))
    (h : decodePayload idCols attrNames types payload = .ok cols) :
    cols.map Prod.fst = idCols ++ attrNames := by
  unfold decodePayload at h
  split at h
  · exact absurd h (by simp)
  · split at h
    · cases h
      exact enum_map_fst_pair (idCols ++ attrNames) _
    · exact absurd h (by simp)

/-- C4: in both vertex mode and edge mode, the decoded columns appear in
strict positional order — identity column(s) first (`vid`, respectively
`source` then `target`), then `inFeatures`, then `outLabels`, then
`extraFeatures`, each in declared order. -/
theorem decode_column_order
    (inF outL extraF : List String) (types : List (String × PrimType))
    (payload : String) (cols cols' : List (String × List Value)) :
    (decodeVertexBytes inF outL extraF types payload = .ok cols →
      cols.map Prod.fst = "vid" :: (inF ++ outL ++ extraF)) ∧
    (decodeEdgeBytes inF outL extraF types payload = .ok cols' →
      cols'.map Prod.fst = "source" :: "target" :: (inF ++ outL ++ extraF)) := by
  constructor
  · intro h
    exact decodePayload_names _ _ _ _ _ h
  · intro h
    exact decodePayload_names _ _ _ _ _ h

/-- Closed instantiation of `decode_column_order` on the concrete vertex
payload of the tests. -/
theorem decode_column_order_witness :
    ([("vid", [Value.vInt 99, Value.vInt 8]),
      ("x", [Value.vList [1, 0, 0, 1], Value.vList [1, 0, 0, 1]]),
      ("y", [Value.vInt 1, Value.vInt 1]),
      ("train_mask", [Value.vBool false, Value.vBool true]),
      ("is_seed", [Value.vBool true, Value.vBool true])].map Prod.fst) =
      "vid" :: (["x"] ++ ["y"] ++ ["train_mask", "is_seed"]) :=
  (decode_column_order ["x"] ["y"] ["train_mask", "is_seed"] c1Types c1Payload _ []).1
    (by decide)

/-! ### Claim C8: undeclared attributes are omitted -/

/-- C8: an assembled tensor-graph batch carries `edge_index` plus exactly
the declared attributes and nothing else; concretely, with only `is_seed`
declared (and no edge attributes), the batch is exactly the `edge_index`
entry and the `is_seed` entry. -/
theorem assemble_omits_undeclared (vSpec eSpec : AttrSpec)
    (vCols eCols : List (String × List Value)) :
    readGraphBytesPyg ⟨[], [], ["is_seed"]⟩ ⟨[], [], []⟩
        [("is_seed", .tBool)] [] "99,1\n8,1\n" "99,8\n8,99\n" =
      .ok [("edge_index", .tIdx [0, 1] [1, 0]),
        ("is_seed", .tCol [.vBool true, .vBool true])] ∧
    (assemblePyg vSpec eSpec vCols eCols).map Prod.fst =
      ["edge_index"]
      ++ (if eSpec.inFeats.isEmpty then [] else ["edge_feat"])
      ++ (if eSpec.outLabels.isEmpty then [] else ["edge_label"])
      ++ eSpec.extraFeats
      ++ (if vSpec.inFeats.isEmpty then [] else ["x"])
      ++ (if vSpec.outLabels.isEmpty then [] else ["y"])
      ++ vSpec.extraFeats := by
  constructor
  · decide
  · have hkey : ∀ {β : Type} (l : List String) (g : String → β),
        l.map (Prod.fst ∘ fun n => (n, g n)) = l := by
      intro β l g
      induction l with
      | nil => rfl
      | cons a l ih => simp only [List.map_cons, Function.comp_apply, ih]
    simp only [assemblePyg, List.map_append, List.map_map]
    split_ifs <;>
      simp [List.map_map, hkey]

/-! ### Trim idempotence (supporting claim C5) -/

theorem dropWhile_dropWhile {α : Type} (p : α → Bool) (l : List α) :
    (l.dropWhile p).dropWhile p = l.dropWhile p := by
  induction l with
  | nil => rfl
  | cons a l ih =>
    by_cases h : p a
    · simp [List.dropWhile_cons, h, ih]
    · simp [List.dropWhile_cons, h]

theorem dropWhile_eq_self_of_prefix {α : Type} (p : α → Bool) {l z : List α}
    (hl : l.dropWhile p = l) (hz : z <+: l) : z.dropWhile p = z := by
  cases z with
  | nil => rfl
  | cons a t =>
    obtain ⟨r, hr⟩ := hz
    have ha : p a = false := by
      cases hpa : p a
      · rfl
      · exfalso
        have h1 : l.dropWhile p = l.dropWhile p := rfl
        rw [← hr] at hl
        simp only [List.cons_append, List.dropWhile_cons, hpa, if_pos] at hl
        have h2 : (List.dropWhile p (t ++ r)).length ≤ (t ++ r).length :=
          (List.dropWhile_sublist _).length_le
        rw [hl] at h2
        simp at h2
    simp [List.dropWhile_cons, ha]

theorem trimRightL_prefixOf (l : List Char) : trimRightL l <+: l := by
  have h1 : l.reverse.dropWhile isWS <:+ l.reverse := List.dropWhile_suffix _
  have h2 := List.reverse_prefix.mpr h1
  rwa [List.reverse_reverse] at h2

theorem trimLeftL_idem (l : List Char) : trimLeftL (trimLeftL l) = trimLeftL l :=
  dropWhile_dropWhile isWS l

theorem trimRightL_idem (l : List Char) :
    trimRightL (trimRightL l) = trimRightL l := by
  unfold trimRightL
  rw [List.reverse_reverse, dropWhile_dropWhile]

theorem trimL_idem (l : List Char) : trimL (trimL l) = trimL l := by
  unfold trimL
  have hy : (trimLeftL l).dropWhile isWS = trimLeftL l := dropWhile_dropWhile isWS l
  have hz : trimLeftL (trimRightL (trimLeftL l)) = trimRightL (trimLeftL l) :=
    dropWhile_eq_self_of_prefix isWS hy (trimRightL_prefixOf _)
  rw [hz, trimRightL_idem]

theorem trimStr_idem (s : String) : trimStr (trimStr s) = trimStr s := by
  have h : (⟨trimL s.toList⟩ : String).toList = trimL s.toList := rfl
  unfold trimStr
  rw [h, trimL_idem]

/-! ### Claim C5: validator normalization is idempotent -/

/-- `trimStr` is idempotent as a function. -/
theorem trimStr_comp : trimStr ∘ trimStr = trimStr :=
  funext trimStr_idem

/-- Unfolding of `validateAttributes` on a nonempty homogeneous sequence. -/
theorem validateAttributes_seq_cons (schema : Schema) (a : String)
    (rest : List String) :
    validateAttributes schema (.seq (a :: rest)) false =
      (if ((a :: rest).map trimStr).all (schemaHasAttr schema) then
        .ok (.flat ((a :: rest).map trimStr))
      else .error .unknownAttribute) := rfl

/-- Unfolding of `validateAttributes` on a nonempty heterogeneous map. -/
theorem validateAttributes_map_cons (schema : Schema) (q : String × List String)
    (rest : List (String × List String)) :
    validateAttributes schema (.byMap (q :: rest)) true =
      (if ((q :: rest).map (fun p => (p.1, p.2.map trimStr))).all
          (fun p => p.2.all (fun a => (schemaAttrsOf schema p.1).contains a)) then
        .ok (.byType ((q :: rest).map (fun p => (p.1, p.2.map trimStr))))
      else .error .unknownAttribute) := rfl

/-- Successful homogeneous validation trims the names (preserving shape and
order) and is a no-op on its own output. -/
theorem validateAttributes_seq_ok (schema : Schema) (xs : List String)
    (out : AttrOutput)
    (h : validateAttributes schema (.seq xs) false = .ok out) :
    out = .flat (xs.map trimStr) ∧
    validateAttributes schema (.seq (xs.map trimStr)) false = .ok out := by
  cases xs with
  | nil =>
    have h' : (Except.ok (.flat []) : Except ValErr AttrOutput) = .ok out := h
    cases h'
    exact ⟨rfl, rfl⟩
  | cons a rest =>
    rw [validateAttributes_seq_cons] at h
    split at h
    · rename_i hcond
      cases h
      refine ⟨rfl, ?_⟩
      rw [List.map_cons] at hcond ⊢
      rw [validateAttributes_seq_cons]
      have hts : (trimStr a :: List.map trimStr rest).map trimStr =
          trimStr a :: List.map trimStr rest := by
        rw [← List.map_cons, List.map_map, trimStr_comp]
      rw [hts, if_pos hcond]
    · cases h

/-- The per-entry trimming map on a heterogeneous spec is idempotent. -/
theorem trimPair_comp :
    ((fun p : String × List String => (p.1, p.2.map trimStr)) ∘
      (fun p : String × List String => (p.1, p.2.map trimStr))) =
      (fun p : String × List String => (p.1, p.2.map trimStr)) := by
  funext p
  show (p.1, (p.2.map trimStr).map trimStr) = (p.1, p.2.map trimStr)
  rw [List.map_map, trimStr_comp]

/-- Successful heterogeneous validation trims the names inside each type's
sequence (preserving shape and order) and is a no-op on its own output. -/
theorem validateAttributes_map_ok (schema : Schema)
    (m : List (String × List String)) (out : AttrOutput)
    (h : validateAttributes schema (.byMap m) true = .ok out) :
    out = .byType (m.map (fun p => (p.1, p.2.map trimStr))) ∧
    validateAttributes schema
      (.byMap (m.map (fun p => (p.1, p.2.map trimStr)))) true = .ok out := by
  cases m with
  | nil =>
    have h' : (Except.ok (.byType []) : Except ValErr AttrOutput) = .ok out := h
    cases h'
    exact ⟨rfl, rfl⟩
  | cons q rest =>
    rw [validateAttributes_map_cons] at h
    split at h
    · rename_i hcond
      cases h
      refine ⟨rfl, ?_⟩
      rw [List.map_cons] at hcond ⊢
      rw [validateAttributes_map_cons]
      have htm : ((q.1, q.2.map trimStr) ::
            rest.map (fun p => (p.1, p.2.map trimStr))).map
            (fun p => (p.1, p.2.map trimStr)) =
          (q.1, q.2.map trimStr) :: rest.map (fun p => (p.1, p.2.map trimStr)) := by
        simp only [List.map_cons, List.map_map, trimPair_comp, trimStr_comp]
      rw [htm, if_pos hcond]
    · cases h

/-- C5: for both validators, in both modes, successful normalization only
trims surrounding whitespace (same shape, same order), and normalizing an
already-normalized spec returns it unchanged. -/
theorem validate_normalization_idem (vS eS : Schema) :
    (∀ xs out, validateVertexAttributes vS (.seq xs) false = .ok out →
      out = .flat (xs.map trimStr) ∧
      validateVertexAttributes vS (AttrOutput.toInput out) false = .ok out) ∧
    (∀ m out, validateVertexAttributes vS (.byMap m) true = .ok out →
      out = .byType (m.map (fun p => (p.1, p.2.map trimStr))) ∧
      validateVertexAttributes vS (AttrOutput.toInput out) true = .ok out) ∧
    (∀ xs out, validateEdgeAttributes eS (.seq xs) false = .ok out →
      out = .flat (xs.map trimStr) ∧
      validateEdgeAttributes eS (AttrOutput.toInput out) false = .ok out) ∧
    (∀ m out, validateEdgeAttributes eS (.byMap m) true = .ok out →
      out = .byType (m.map (fun p => (p.1, p.2.map trimStr))) ∧
      validateEdgeAttributes eS (AttrOutput.toInput out) true = .ok out) := by
  refine ⟨fun xs out h => ?_, fun m out h => ?_, fun xs out h => ?_,
    fun m out h => ?_⟩
  · obtain ⟨h1, h2⟩ := validateAttributes_seq_ok vS xs out h
    exact ⟨h1, by rw [h1]; rw [h1] at h2; exact h2⟩
  · obtain ⟨h1, h2⟩ := validateAttributes_map_ok vS m out h
    exact ⟨h1, by rw [h1]; rw [h1] at h2; exact h2⟩
  · obtain ⟨h1, h2⟩ := validateAttributes_seq_ok eS xs out h
    exact ⟨h1, by rw [h1]; rw [h1] at h2; exact h2⟩
  · obtain ⟨h1, h2⟩ := validateAttributes_map_ok eS m out h
    exact ⟨h1, by rw [h1]; rw [h1] at h2; exact h2⟩

/-- Closed instantiation of `validate_normalization_idem`: trimming
`["x ", " y"]` gives `["x", "y"]`, and revalidating the trimmed spec is a
no-op. -/
theorem validate_normalization_idem_witness :
    validateVertexAttributes coraVSchema (.seq ["x", "y"]) false =
      .ok (.flat ["x", "y"]) :=
  ((validate_normalization_idem coraVSchema coraESchema).1
    ["x ", " y"] (.flat ["x", "y"]) (by decide)).2

/-! ### Claim C7: unknown attributes are rejected -/

/-- A single failing element falsifies `List.all`. -/
theorem all_eq_false_of_mem {α : Type} (p : α → Bool) {l : List α} {x : α}
    (hx : x ∈ l) (hpx : p x = false) : l.all p = false := by
  induction l with
  | nil => cases hx
  | cons b t ih =>
    rcases List.mem_cons.mp hx with h | h
    · subst h
      simp [List.all_cons, hpx]
    · simp [List.all_cons, ih h]

/-- Homogeneous mode: a declared name whose trimmed form no type of the
catalog carries makes validation fail with `UnknownAttributeError`. -/
theorem validateAttributes_seq_unknown (schema : Schema) (xs : List String)
    (a : String) (ha : a ∈ xs) (hn : schemaHasAttr schema (trimStr a) = false) :
    validateAttributes schema (.seq xs) false = .error .unknownAttribute := by
  cases xs with
  | nil => cases ha
  | cons b rest =>
    have hcond : ((b :: rest).map trimStr).all (schemaHasAttr schema) = false :=
      all_eq_false_of_mem _ (List.mem_map_of_mem trimStr ha) hn
    rw [validateAttributes_seq_cons, hcond]
    simp

/-- Heterogeneous mode: a declared name whose trimmed form the catalog does
not carry for its owning type makes validation fail with
`UnknownAttributeError`. -/
theorem validateAttributes_map_unknown (schema : Schema)
    (m : List (String × List String)) (t : String) (attrs : List String)
    (a : String) (hm : (t, attrs) ∈ m) (ha : a ∈ attrs)
    (hn : (schemaAttrsOf schema t).contains (trimStr a) = false) :
    validateAttributes schema (.byMap m) true = .error .unknownAttribute := by
  cases m with
  | nil => cases hm
  | cons q rest =>
    have hinner : (attrs.map trimStr).all
        (fun x => (schemaAttrsOf schema t).contains x) = false :=
      all_eq_false_of_mem _ (List.mem_map_of_mem trimStr ha) hn
    have hcond : ((q :: rest).map (fun p => (p.1, p.2.map trimStr))).all
        (fun p => p.2.all (fun a => (schemaAttrsOf schema p.1).contains a)) =
        false :=
      all_eq_false_of_mem _
        (List.mem_map_of_mem (fun p => (p.1, p.2.map trimStr)) hm) hinner
    rw [validateAttributes_map_cons, hcond]
    simp

/-- C7: for both validators, in both homogeneous (sequence) and
heterogeneous (mapping) form, declaring an attribute the Schema Catalog
does not know for its owning type fails with `UnknownAttributeError`. -/
theorem validate_unknown_attribute (vS eS : Schema) :
    (∀ xs a, a ∈ xs → schemaHasAttr vS (trimStr a) = false →
      validateVertexAttributes vS (.seq xs) false = .error .unknownAttribute) ∧
    (∀ m t attrs a, (t, attrs) ∈ m → a ∈ attrs →
      (schemaAttrsOf vS t).contains (trimStr a) = false →
      validateVertexAttributes vS (.byMap m) true = .error .unknownAttribute) ∧
    (∀ xs a, a ∈ xs → schemaHasAttr eS (trimStr a) = false →
      validateEdgeAttributes eS (.seq xs) false = .error .unknownAttribute) ∧
    (∀ m t attrs a, (t, attrs) ∈ m → a ∈ attrs →
      (schemaAttrsOf eS t).contains (trimStr a) = false →
      validateEdgeAttributes eS (.byMap m) true = .error .unknownAttribute) :=
  ⟨fun _ a ha hn => validateAttributes_seq_unknown vS _ a ha hn,
    fun _ t attrs a hm ha hn => validateAttributes_map_unknown vS _ t attrs a hm ha hn,
    fun _ a ha hn => validateAttributes_seq_unknown eS _ a ha hn,
    fun _ t attrs a hm ha hn => validateAttributes_map_unknown eS _ t attrs a hm ha hn⟩

/-- Closed instantiation of `validate_unknown_attribute` on the Cora
schemas and the `"nonexist"` attribute of the tests. -/
theorem validate_unknown_attribute_witness :
    validateVertexAttributes coraVSchema (.seq ["nonexist"]) false =
      .error .unknownAttribute ∧
    validateVertexAttributes coraVSchema (.byMap [("Paper", ["nonexist"])]) true =
      .error .unknownAttribute ∧
    validateEdgeAttributes coraESchema (.seq ["nonexist"]) false =
      .error .unknownAttribute ∧
    validateEdgeAttributes coraESchema (.byMap [("Cite", ["nonexist"])]) true =
      .error .unknownAttribute :=
  ⟨(validate_unknown_attribute coraVSchema coraESchema).1
      ["nonexist"] "nonexist" (by decide) (by decide),
    (validate_unknown_attribute coraVSchema coraESchema).2.1
      [("Paper", ["nonexist"])] "Paper" ["nonexist"] "nonexist"
      (by decide) (by decide) (by decide),
    (validate_unknown_attribute coraVSchema coraESchema).2.2.1
      ["nonexist"] "nonexist" (by decide) (by decide),
    (validate_unknown_attribute coraVSchema coraESchema).2.2.2
      [("Cite", ["nonexist"])] "Cite" ["nonexist"] "nonexist"
      (by decide) (by decide) (by decide)⟩

/-! ### First-seen indexing (supporting claim C2) -/

theorem mem_firstSeenAux {x : Int} :
    ∀ (seen l : List Int), (x ∈ firstSeenAux seen l ↔ (x ∈ l ∧ x ∉ seen)) := by
  intro seen l
  induction l generalizing seen with
  | nil => simp [firstSeenAux]
  | cons a t ih =>
    simp only [firstSeenAux]
    by_cases h : a ∈ seen
    · rw [if_pos h, ih]
      constructor
      · rintro ⟨hx, hns⟩
        exact ⟨List.mem_cons_of_mem _ hx, hns⟩
      · rintro ⟨hx, hns⟩
        rcases List.mem_cons.mp hx with rfl | hx'
        · exact absurd h hns
        · exact ⟨hx', hns⟩
    · rw [if_neg h]
      simp only [List.mem_cons, ih, not_or]
      constructor
      · rintro (rfl | ⟨hx, _, hxs⟩)
        · exact ⟨Or.inl rfl, h⟩
        · exact ⟨Or.inr hx, hxs⟩
      · rintro ⟨hxc, hns⟩
        by_cases hxa : x = a
        · exact Or.inl hxa
        · rcases hxc with rfl | hx
          · exact absurd rfl hxa
          · exact Or.inr ⟨hx, hxa, hns⟩

theorem nodup_firstSeenAux : ∀ (seen l : List Int), (firstSeenAux seen l).Nodup := by
  intro seen l
  induction l generalizing seen with
  | nil => exact List.nodup_nil
  | cons a t ih =>
    simp only [firstSeenAux]
    by_cases h : a ∈ seen
    · rw [if_pos h]
      exact ih seen
    · rw [if_neg h]
      refine List.nodup_cons.mpr ⟨fun hc => ?_, ih (a :: seen)⟩
      exact ((mem_firstSeenAux (a :: seen) t).mp hc).2 (List.mem_cons_self a seen)

theorem firstSeenAux_congr :
    ∀ {s₁ s₂ : List Int} (l : List Int), (∀ x, x ∈ s₁ ↔ x ∈ s₂) →
      firstSeenAux s₁ l = firstSeenAux s₂ l := by
  intro s₁ s₂ l h
  induction l generalizing s₁ s₂ with
  | nil => rfl
  | cons a t ih =>
    simp only [firstSeenAux]
    by_cases ha : a ∈ s₁
    · rw [if_pos ha, if_pos ((h a).mp ha)]
      exact ih h
    · rw [if_neg ha, if_neg (fun hc => ha ((h a).mpr hc))]
      congr 1
      apply ih
      intro x
      simp only [List.mem_cons]
      exact or_congr Iff.rfl (h x)

theorem firstSeenAux_append (seen A B : List Int) :
    firstSeenAux seen (A ++ B) =
      firstSeenAux seen A ++ firstSeenAux (A ++ seen) B := by
  induction A generalizing seen with
  | nil => simp [firstSeenAux]
  | cons a A ih =>
    simp only [List.cons_append, firstSeenAux, List.append_eq]
    by_cases ha : a ∈ seen
    · rw [if_pos ha, if_pos ha, ih]
      congr 1
      apply firstSeenAux_congr
      intro x
      simp only [List.mem_append, List.cons_append, List.mem_cons]
      constructor
      · rintro (hx | hx)
        · exact Or.inr (Or.inl hx)
        · exact Or.inr (Or.inr hx)
      · rintro (rfl | hx | hx)
        · exact Or.inr ha
        · exact Or.inl hx
        · exact Or.inr hx
    · rw [if_neg ha, if_neg ha, ih]
      simp only [List.cons_append]
      congr 1
      congr 1
      apply firstSeenAux_congr
      intro x
      simp only [List.mem_append, List.mem_cons]
      constructor
      · rintro (hx | rfl | hx)
        · exact Or.inr (Or.inl hx)
        · exact Or.inl rfl
        · exact Or.inr (Or.inr hx)
      · rintro (rfl | hx | hx)
        · exact Or.inr (Or.inl rfl)
        · exact Or.inl hx
        · exact Or.inr (Or.inr hx)

theorem localIdx_lt_length {v : Int} :
    ∀ {l : List Int}, v ∈ l → localIdx v l < l.length := by
  intro l
  induction l with
  | nil => intro hv; cases hv
  | cons x xs ih =>
    intro hv
    simp only [localIdx, List.length_cons]
    by_cases h : x = v
    · rw [if_pos h]
      omega
    · rw [if_neg h]
      have hv' : v ∈ xs := by
        rcases List.mem_cons.mp hv with rfl | h'
        · exact absurd rfl h
        · exact h'
      have := ih hv'
      omega

theorem localIdx_inj {v w : Int} :
    ∀ {l : List Int}, v ∈ l → w ∈ l → localIdx v l = localIdx w l → v = w := by
  intro l
  induction l with
  | nil => intro hv; cases hv
  | cons x xs ih =>
    intro hv hw heq
    simp only [localIdx] at heq
    by_cases hxv : x = v <;> by_cases hxw : x = w
    · rw [← hxv, ← hxw]
    · rw [if_pos hxv, if_neg hxw] at heq
      omega
    · rw [if_neg hxv, if_pos hxw] at heq
      omega
    · rw [if_neg hxv, if_neg hxw] at heq
      have hv' : v ∈ xs := by
        rcases List.mem_cons.mp hv with rfl | h'
        · exact absurd rfl hxv
        · exact h'
      have hw' : w ∈ xs := by
        rcases List.mem_cons.mp hw with rfl | h'
        · exact absurd rfl hxw
        · exact h'
      exact ih hv' hw' (by omega)

theorem localIdx_surj :
    ∀ {l : List Int}, l.Nodup → ∀ i, i < l.length →
      ∃ v, v ∈ l ∧ localIdx v l = i := by
  intro l
  induction l with
  | nil =>
    intro _ i hi
    simp at hi
  | cons x xs ih =>
    intro hnd i hi
    rcases List.nodup_cons.mp hnd with ⟨hx, hnd'⟩
    cases i with
    | zero => exact ⟨x, List.mem_cons_self x xs, by simp [localIdx]⟩
    | succ j =>
      have hj : j < xs.length := by
        simp only [List.length_cons] at hi
        omega
      obtain ⟨v, hv, hidx⟩ := ih hnd' j hj
      refine ⟨v, List.mem_cons_of_mem x hv, ?_⟩
      have hxv : ¬ x = v := fun hc => hx (hc ▸ hv)
      simp [localIdx, hxv, hidx]

theorem localIdx_append_left {v : Int} :
    ∀ {P : List Int} (Q : List Int), v ∈ P →
      localIdx v (P ++ Q) = localIdx v P := by
  intro P Q
  induction P with
  | nil => intro hv; cases hv
  | cons x xs ih =>
    intro hv
    simp only [List.cons_append, localIdx, List.append_eq]
    by_cases h : x = v
    · rw [if_pos h, if_pos h]
    · rw [if_neg h, if_neg h]
      have hv' : v ∈ xs := by
        rcases List.mem_cons.mp hv with rfl | h'
        · exact absurd rfl h
        · exact h'
      rw [ih hv']

theorem localIdx_append_right {v : Int} :
    ∀ {P : List Int} (Q : List Int), v ∉ P →
      localIdx v (P ++ Q) = P.length + localIdx v Q := by
  intro P Q
  induction P with
  | nil =>
    intro _
    simp
  | cons x xs ih =>
    intro hv
    have hxv : ¬ x = v := fun hc => hv (hc ▸ List.mem_cons_self x xs)
    have hv' : v ∉ xs := fun hc => hv (List.mem_cons_of_mem x hc)
    simp only [List.cons_append, localIdx, List.length_cons, List.append_eq]
    rw [if_neg hxv, ih hv']
    omega

/-! ### Claim C2: vertex-ID remapping is a first-seen bijection -/

/-- Vertex half of the combined payload of the PyG test. -/
def c2VPayload : String := "99,1 0 0 1 ,1,0,Alex,1\n8,1 0 0 1 ,1,1,Bill,1\n"

/-- Edge half of the combined payload of the PyG test. -/
def c2EPayload : String := "99,8,0.1,2021,1,0\n8,99,1.5,2020,0,1\n"

/-- Vertex attribute types of the PyG test. -/
def c2VTypes : List (String × PrimType) :=
  [("x", .tInt), ("y", .tInt), ("train_mask", .tBool), ("name", .tStr),
    ("is_seed", .tBool)]

/-- Edge attribute types of the PyG test. -/
def c2ETypes : List (String × PrimType) :=
  [("x", .tFloat), ("time", .tInt), ("y", .tInt), ("is_train", .tBool)]

/-- C2: the vertex-ID remapping of a tensor-graph batch is a bijection from
the distinct vertex IDs of the batch onto `0..k-1`, assigned in first-seen
order with seed (vertex-table) vertices before any neighbor-only vertex,
and the concrete combined payload with vertex IDs `{99, 8}` and edges
`99→8`, `8→99` yields `edge_index = [[0, 1], [1, 0]]`. -/
theorem remap_first_seen_bijection (vids sources targets : List Int) :
    (reindexList vids sources targets).Nodup ∧
    (∀ v, v ∈ reindexList vids sources targets ↔
      v ∈ vids ++ edgeEndpointSeq sources targets) ∧
    (∀ v, v ∈ vids ++ edgeEndpointSeq sources targets →
      localIdx v (reindexList vids sources targets) <
        (reindexList vids sources targets).length) ∧
    (∀ v w, v ∈ vids ++ edgeEndpointSeq sources targets →
      w ∈ vids ++ edgeEndpointSeq sources targets →
      localIdx v (reindexList vids sources targets) =
        localIdx w (reindexList vids sources targets) → v = w) ∧
    (∀ i, i < (reindexList vids sources targets).length →
      ∃ v, v ∈ vids ++ edgeEndpointSeq sources targets ∧
        localIdx v (reindexList vids sources targets) = i) ∧
    (∀ v w, v ∈ vids → w ∉ vids →
      w ∈ vids ++ edgeEndpointSeq sources targets →
      localIdx v (reindexList vids sources targets) <
        localIdx w (reindexList vids sources targets)) ∧
    (readGraphBytesPyg ⟨["x"], ["y"], ["train_mask", "name", "is_seed"]⟩
      ⟨["x", "time"], ["y"], ["is_train"]⟩ c2VTypes c2ETypes
      c2VPayload c2EPayload).toOption.bind
        (fun entries => (entries.find? (fun e => e.1 == "edge_index")).map
          Prod.snd) = some (.tIdx [0, 1] [1, 0]) := by
  have hmem : ∀ v, v ∈ reindexList vids sources targets ↔
      v ∈ vids ++ edgeEndpointSeq sources targets := by
    intro v
    rw [reindexList, firstSeen, mem_firstSeenAux]
    simp
  have hnd : (reindexList vids sources targets).Nodup :=
    nodup_firstSeenAux [] _
  refine ⟨hnd, hmem, ?_, ?_, ?_, ?_, by decide⟩
  · intro v hv
    exact localIdx_lt_length ((hmem v).mpr hv)
  · intro v w hv hw
    exact localIdx_inj ((hmem v).mpr hv) ((hmem w).mpr hw)
  · intro i hi
    obtain ⟨v, hv, hidx⟩ := localIdx_surj hnd i hi
    exact ⟨v, (hmem v).mp hv, hidx⟩
  · intro v w hv hwn hw
    have hsplit : reindexList vids sources targets =
        firstSeenAux [] vids ++
          firstSeenAux (vids ++ []) (edgeEndpointSeq sources targets) :=
      firstSeenAux_append [] vids (edgeEndpointSeq sources targets)
    have hvP : v ∈ firstSeenAux [] vids :=
      (mem_firstSeenAux [] vids).mpr ⟨hv, by simp⟩
    have hwP : w ∉ firstSeenAux [] vids := fun hc =>
      hwn ((mem_firstSeenAux [] vids).mp hc).1
    rw [hsplit, localIdx_append_left _ hvP, localIdx_append_right _ hwP]
    have := localIdx_lt_length hvP
    omega

/-- Closed instantiation of `remap_first_seen_bijection`: with seed vertex
`99` and neighbor `8`, the local index of `99` is in range and precedes
the local index of the neighbor-only vertex `8`. -/
theorem remap_first_seen_bijection_witness :
    localIdx 99 (reindexList [99] [99, 8] [8, 99]) <
      (reindexList [99] [99, 8] [8, 99]).length ∧
    localIdx 99 (reindexList [99] [99, 8] [8, 99]) <
      localIdx 8 (reindexList [99] [99, 8] [8, 99]) :=
  ⟨(remap_first_seen_bijection [99] [99, 8] [8, 99]).2.2.1 99 (by decide),
    (remap_first_seen_bijection [99] [99, 8] [8, 99]).2.2.2.2.2.1 99 8
      (by decide) (by decide) (by decide)⟩

/-! ### Claim C3: the sentinel protocol -/

theorem sum_map_one {γ : Type} (l : List γ) :
    (l.map (fun _ => (1 : Nat))).sum = l.length := by
  induction l with
  | nil => rfl
  | cons a t ih => simp [ih, Nat.add_comm]

theorem readData_eq {α β : Type} (process : α → β) (ts : List α) :
    readData process ts = ts.map (fun t => some (process t)) ++ [none] := by
  induction ts with
  | nil => rfl
  | cons t ts ih => simp [readData, ih]

theorem countP_isNone_readData {α β : Type} (process : α → β) (ts : List α) :
    (readData process ts).countP (fun o => o.isNone) = 1 := by
  induction ts with
  | nil => rfl
  | cons t ts ih => simp [readData, List.countP_cons, ih]

theorem countP_isSome_readData {α β : Type} (process : α → β) (ts : List α) :
    (readData process ts).countP (fun o => o.isSome) = ts.length := by
  induction ts with
  | nil => rfl
  | cons t ts ih => simp [readData, List.countP_cons, ih]

/-- Any interleaving of worker output sequences is a permutation of their
concatenation. -/
theorem merge_perm_flatten {α : Type} {ls : List (List α)} {out : List α}
    (h : Merge ls out) : out.Perm ls.flatten := by
  induction h with
  | nil => exact List.Perm.refl _
  | emp _ ih => simpa using ih
  | pick h ih =>
    rename_i x l ls2 out2
    simpa using ih.cons x
  | perm hp _ ih => exact ih.trans hp.flatten.symm

/-- Once a prefix of an interleaving contains one sentinel per nonempty
worker sequence (each of which is batches followed by a final sentinel),
the whole stream has been consumed. -/
theorem merge_sentinel_drain {β : Type} :
    ∀ {ls : List (List (Option β))} {out : List (Option β)}, Merge ls out →
      (∀ l ∈ ls, l = [] ∨ ∃ bs : List β, l = bs.map some ++ [none]) →
      ∀ p q, out = p ++ q →
        p.countP (fun o => o.isNone) = ls.countP (fun l => !l.isEmpty) →
        q = [] := by
  intro ls out hm
  induction hm with
  | nil =>
    intro _ p q hout _
    exact (List.append_eq_nil.mp hout.symm).2
  | emp hm' ih =>
    intro hls p q hout hp
    apply ih (fun l hl => hls l (List.mem_cons_of_mem _ hl)) p q hout
    simpa using hp
  | pick hm' ih =>
    rename_i x l ls' out'
    intro hls p q hout hp
    rcases hls (x :: l) (List.mem_cons_self _ _) with hceq | ⟨bs, hbs⟩
    · exact absurd hceq (List.cons_ne_nil x l)
    cases p with
    | nil =>
      exfalso
      simp only [List.countP_nil] at hp
      have hp' : List.countP (fun l : List (Option β) => !l.isEmpty)
          ((x :: l) :: ls') =
          List.countP (fun l : List (Option β) => !l.isEmpty) ls' + 1 := by
        simp
      omega
    | cons y p' =>
      rw [List.cons_append] at hout
      injection hout with hxy hout'
      subst hxy
      cases bs with
      | nil =>
        simp only [List.map_nil, List.nil_append] at hbs
        injection hbs with hx hl
        subst hx
        subst hl
        refine ih ?_ p' q hout' ?_
        · intro l' hl'
          rcases List.mem_cons.mp hl' with rfl | hm2
          · exact Or.inl rfl
          · exact hls l' (List.mem_cons_of_mem _ hm2)
        · have e1 : List.countP (fun o : Option β => o.isNone) (none :: p') =
              List.countP (fun o : Option β => o.isNone) p' + 1 := by simp
          have e2 : List.countP (fun l : List (Option β) => !l.isEmpty)
              ([none] :: ls') =
              List.countP (fun l : List (Option β) => !l.isEmpty) ls' + 1 := by
            simp
          have e3 : List.countP (fun l : List (Option β) => !l.isEmpty)
              ([] :: ls') =
              List.countP (fun l : List (Option β) => !l.isEmpty) ls' := by
            simp
          omega
      | cons b bs' =>
        simp only [List.map_cons, List.cons_append] at hbs
        injection hbs with hx hl
        subst hx
        refine ih ?_ p' q hout' ?_
        · intro l' hl'
          rcases List.mem_cons.mp hl' with rfl | hm2
          · exact Or.inr ⟨bs', hl⟩
          · exact hls l' (List.mem_cons_of_mem _ hm2)
        · have hlne : l.isEmpty = false := by
            simp [hl]
          have e1 : List.countP (fun o : Option β => o.isNone) (some b :: p') =
              List.countP (fun o : Option β => o.isNone) p' := by simp
          have e2 : List.countP (fun l' : List (Option β) => !l'.isEmpty)
              ((some b :: l) :: ls') =
              List.countP (fun l' : List (Option β) => !l'.isEmpty) ls' + 1 := by
            simp
          have e3 : List.countP (fun l' : List (Option β) => !l'.isEmpty)
              (l :: ls') =
              List.countP (fun l' : List (Option β) => !l'.isEmpty) ls' + 1 := by
            simp [hlne]
          omega
  | perm hperm hm' ih =>
    intro hls p q hout hp
    refine ih ?_ p q hout ?_
    · intro l hl
      exact hls l (hperm.mem_iff.mpr hl)
    · rw [hp]
      exact hperm.countP_eq _

/-- C3: each reader worker pushes one batch per task and then exactly one
sentinel; for any interleaved consumption order of the started workers'
pushes, the number of sentinels equals the worker count, the number of
batch objects equals the total task count (the precomputed number of
batches), and as soon as one sentinel per worker has been consumed, all
batch objects of the epoch have been delivered. -/
theorem sentinel_epoch_protocol {α β : Type} (process : α → β)
    (workers : List (List α)) (merged : List (Option β)) :
    (∀ ts, readData process ts = ts.map (fun t => some (process t)) ++ [none]) ∧
    (Merge (workers.map (readData process)) merged →
      merged.countP (fun o => o.isNone) = workers.length ∧
      merged.countP (fun o => o.isSome) = (workers.map List.length).sum ∧
      ∀ p q, merged = p ++ q →
        p.countP (fun o => o.isNone) = workers.length →
        p.countP (fun o => o.isSome) = (workers.map List.length).sum) := by
  refine ⟨readData_eq process, fun hm => ?_⟩
  have hperm := merge_perm_flatten hm
  have hcN : merged.countP (fun o => o.isNone) = workers.length := by
    rw [hperm.countP_eq, List.countP_flatten, List.map_map]
    have h1 : (List.countP (fun o => o.isNone) ∘ readData process) =
        fun _ : List α => (1 : Nat) :=
      funext fun ts => countP_isNone_readData process ts
    rw [h1]
    exact sum_map_one workers
  have hcS : merged.countP (fun o => o.isSome) = (workers.map List.length).sum := by
    rw [hperm.countP_eq, List.countP_flatten, List.map_map]
    have h1 : (List.countP (fun o => o.isSome) ∘ readData process) =
        List.length (α := α) :=
      funext fun ts => countP_isSome_readData process ts
    rw [h1]
  refine ⟨hcN, hcS, ?_⟩
  intro p q hout hpcount
  have hls : ∀ l ∈ workers.map (readData process),
      l = [] ∨ ∃ bs : List β, l = bs.map some ++ [none] := by
    intro l hl
    obtain ⟨ts, _, rfl⟩ := List.mem_map.mp hl
    exact Or.inr ⟨ts.map process, by rw [readData_eq, List.map_map]; rfl⟩
  have hcount' : (workers.map (readData process)).countP
      (fun l => !l.isEmpty) = workers.length := by
    have hall : ∀ l ∈ workers.map (readData process), (!l.isEmpty) = true := by
      intro l hl
      obtain ⟨ts, _, rfl⟩ := List.mem_map.mp hl
      rw [readData_eq]
      cases ts <;> simp
    calc (workers.map (readData process)).countP (fun l => !l.isEmpty) =
        (workers.map (readData process)).length := List.countP_eq_length.mpr hall
      _ = workers.length := by simp
  have hq : q = [] :=
    merge_sentinel_drain hm hls p q hout (by rw [hpcount, ← hcount'])
  subst hq
  rw [List.append_nil] at hout
  subst hout
  exact hcS

/-- Closed instantiation of `sentinel_epoch_protocol` on two workers
(tasks `[1]` and `[2, 3]`) and one concrete interleaving of their pushes:
two sentinels and three delivered batches. -/
theorem sentinel_epoch_protocol_witness :
    ([some 1, none, some 2, some 3, none] : List (Option Nat)).countP
        (fun o => o.isNone) = 2 ∧
    ([some 1, none, some 2, some 3, none] : List (Option Nat)).countP
        (fun o => o.isSome) = 3 :=
  ⟨((sentinel_epoch_protocol (fun n : Nat => n) [[1], [2, 3]]
      [some 1, none, some 2, some 3, none]).2
      (.pick (.pick (.emp (.pick (.pick (.pick (.emp .nil)))))))).1,
    ((sentinel_epoch_protocol (fun n : Nat => n) [[1], [2, 3]]
      [some 1, none, some 2, some 3, none]).2
      (.pick (.pick (.emp (.pick (.pick (.pick (.emp .nil)))))))).2.1⟩

end PyTG
